import Mathlib

/-!
Verification of the simulation recontextualization workflow
(`utlis_2.py` / `recontexualize.py`).

The Python source is shallowly embedded: JSON values become the inductive
type `Json`, the LangGraph node functions become pure Lean functions on an
explicit workflow-state record, and Python exceptions become `Except`
results.  External library calls (`genson.SchemaBuilder`,
`jsonschema.validate`, `json_repair.loads`, `deepdiff.DeepDiff`,
`time.time`) are not part of the repository; where a claim depends on them
they are either modelled from the specification (schema inference and
schema validation) or passed as explicit function parameters (parsing,
diffing, clock).
-/

/-! ## JSON data model

A Python JSON document: nested dicts (modelled as association lists in a
canonical key order), lists, strings, integers, booleans and `None`.
Numbers are modelled as integers only; no claim depends on floats. -/

inductive Json where
  | null : Json
  | bool (b : Bool) : Json
  | num (n : Int) : Json
  | str (s : String) : Json
  | arr (xs : List Json) : Json
  | obj (kvs : List (String × Json)) : Json

mutual
def Json.beq : Json → Json → Bool
  | .null, .null => true
  | .bool a, .bool b => a == b
  | .num a, .num b => a == b
  | .str a, .str b => a == b
  | .arr xs, .arr ys => Json.beqL xs ys
  | .obj xs, .obj ys => Json.beqKV xs ys
  | _, _ => false

def Json.beqL : List Json → List Json → Bool
  | [], [] => true
  | x :: xs, y :: ys => Json.beq x y && Json.beqL xs ys
  | _, _ => false

def Json.beqKV : List (String × Json) → List (String × Json) → Bool
  | [], [] => true
  | (k, v) :: xs, (k', v') :: ys => k == k' && Json.beq v v' && Json.beqKV xs ys
  | _, _ => false
end

/-- Strong induction on the size of a `Json` value, used to recurse through
the nested lists. -/
theorem Json.strongInd (P : Json → Prop)
    (h : ∀ d : Json, (∀ e : Json, sizeOf e < sizeOf d → P e) → P d) : ∀ d, P d := by
  intro d
  have key : ∀ n, ∀ e : Json, sizeOf e ≤ n → P e := by
    intro n
    induction n with
    | zero =>
      intro e he
      exact h e (fun e' h' => absurd (Nat.lt_of_lt_of_le h' he) (Nat.not_lt_zero _))
    | succ n ih => intro e he; exact h e (fun e' h' => ih e' (by omega))
  exact key (sizeOf d) d (Nat.le_refl _)

theorem Json.sizeOf_mem_arr {x : Json} {xs : List Json} (h : x ∈ xs) :
    sizeOf x < sizeOf (Json.arr xs) := by
  have := List.sizeOf_lt_of_mem h
  simp only [Json.arr.sizeOf_spec]; omega

theorem Json.sizeOf_mem_obj {k : String} {v : Json} {kvs : List (String × Json)}
    (h : (k, v) ∈ kvs) : sizeOf v < sizeOf (Json.obj kvs) := by
  have h1 := List.sizeOf_lt_of_mem h
  have h2 : sizeOf (k, v) = 1 + sizeOf k + sizeOf v := rfl
  simp only [Json.obj.sizeOf_spec]; omega

theorem Json.beq_iff : ∀ a b : Json, Json.beq a b = true ↔ a = b := by
  intro a
  induction a using Json.strongInd with
  | h a ih =>
    intro b
    cases a <;> cases b <;> simp [Json.beq]
    case arr.arr xs ys =>
      induction xs generalizing ys with
      | nil => cases ys <;> simp [Json.beqL]
      | cons x xs ihx =>
        have hstep : ∀ e : Json, sizeOf e < sizeOf (Json.arr xs) →
            ∀ b : Json, Json.beq e b = true ↔ e = b := by
          intro e he
          refine ih e ?_
          have : sizeOf (Json.arr xs) < sizeOf (Json.arr (x :: xs)) := by
            simp only [Json.arr.sizeOf_spec, List.cons.sizeOf_spec]; omega
          omega
        cases ys with
        | nil => simp [Json.beqL]
        | cons y ys =>
          simp only [Json.beqL, Bool.and_eq_true]
          constructor
          · rintro ⟨h1, h2⟩
            have e1 := (ih x (Json.sizeOf_mem_arr (List.mem_cons_self _ _)) y).mp h1
            have e2 := (ihx hstep ys).mp h2
            simp at e2
            simp [e1, e2]
          · rintro ⟨rfl, rfl⟩
            refine ⟨(ih x (Json.sizeOf_mem_arr (List.mem_cons_self _ _)) x).mpr rfl, ?_⟩
            have := (ihx hstep xs).mpr rfl
            simpa using this
    case obj.obj xs ys =>
      induction xs generalizing ys with
      | nil => cases ys <;> simp [Json.beqKV]
      | cons x xs ihx =>
        obtain ⟨k, v⟩ := x
        have hstep : ∀ e : Json, sizeOf e < sizeOf (Json.obj xs) →
            ∀ b : Json, Json.beq e b = true ↔ e = b := by
          intro e he
          refine ih e ?_
          have : sizeOf (Json.obj xs) < sizeOf (Json.obj ((k, v) :: xs)) := by
            simp only [Json.obj.sizeOf_spec, List.cons.sizeOf_spec]; omega
          omega
        cases ys with
        | nil => simp [Json.beqKV]
        | cons y ys =>
          obtain ⟨k', v'⟩ := y
          simp only [Json.beqKV, Bool.and_eq_true, beq_iff_eq]
          constructor
          · rintro ⟨⟨rfl, h1⟩, h2⟩
            have e1 := (ih v (Json.sizeOf_mem_obj
              (show (k, v) ∈ (k, v) :: xs from List.mem_cons_self _ _)) v').mp h1
            have e2 := (ihx hstep ys).mp h2
            simp at e2
            simp [e1, e2]
          · rintro ⟨rfl, rfl⟩
            refine ⟨⟨rfl, (ih v (Json.sizeOf_mem_obj
              (show (k, v) ∈ (k, v) :: xs from List.mem_cons_self _ _)) v).mpr rfl⟩, ?_⟩
            have := (ihx hstep xs).mpr rfl
            simpa using this

instance : DecidableEq Json := fun a b =>
  decidable_of_iff (Json.beq a b = true) (Json.beq_iff a b)

/-! ## Retry state machine

Embedding of the validation/retry control flow of `utlis_2.py`:
`MAX_RETRIES` (line 36), the retry-relevant part of the partial update
returned by `validate_json` (lines 175-216) and the conditional routing
function `route_after_validation` (lines 254-271). -/

/-- Constant `MAX_RETRIES = 3` from `utlis_2.py` line 36. -/
def MAX_RETRIES : Nat := 3

/-- Outcome of one validation attempt, as classified by `validate_json`:
the success case, the `jsonschema.ValidationError` case and the
`json.JSONDecodeError` case, each carrying the exception message. -/
inductive Verdict where
  | pass : Verdict
  | schemaViolation (msg : String) : Verdict
  | parseError (msg : String) : Verdict
deriving DecidableEq

/-- The retry-relevant fields of the workflow `State` TypedDict. -/
structure RC where
  num_retries : Nat
  evaluator_message : String
  history_evaluator : List String
deriving DecidableEq

/-- Effect of one `validate_json` call on the retry-relevant state fields,
mirroring the three return dictionaries of `validate_json`
(`utlis_2.py` lines 196-216): `PASS` leaves `num_retries` unchanged, the
two failure branches return `num_retries + 1`. -/
def applyVerdict (s : RC) (v : Verdict) : RC :=
  match v with
  | .pass =>
      { s with
        evaluator_message := "PASS"
        history_evaluator := s.history_evaluator ++ ["PASS"] }
  | .schemaViolation m =>
      { num_retries := s.num_retries + 1
        evaluator_message := "JSON Schema Validation FAILED: " ++ m
        history_evaluator := s.history_evaluator ++ [m] }
  | .parseError m =>
      { num_retries := s.num_retries + 1
        evaluator_message := "JSON Parse Error: " ++ m
        history_evaluator := s.history_evaluator ++ [m] }

/-- The three conditional routes out of the `validate_json` node. -/
inductive Route where
  | pass : Route
  | fail : Route
  | retryLimitExceeded : Route
deriving DecidableEq

/-- Embedding of `route_after_validation` (`utlis_2.py` lines 254-271):
routes on the state as it stands after the `validate_json` update has been
merged, so `num_retries` is read post-increment. -/
def route_after_validation (evaluator_message : String) (num_retries : Nat) : Route :=
  if evaluator_message = "PASS" then .pass
  else if num_retries ≥ MAX_RETRIES then .retryLimitExceeded
  else .fail

def routeOf (s : RC) : Route :=
  route_after_validation s.evaluator_message s.num_retries

/-- Retry-relevant fields of `create_initial_state`
(`utlis_2.py` lines 103-116). -/
def initRC : RC :=
  { num_retries := 0, evaluator_message := "", history_evaluator := [] }

/-- Runs the validate/route loop over a sequence of validation verdicts:
apply a verdict, route, continue on `fail` (the correction node changes no
retry-relevant field), stop on any terminal route.  Returns the final state
and the terminal route (`none` when the verdict list ran out mid-loop). -/
def runAux : List Verdict → RC → RC × Option Route
  | [], s => (s, none)
  | v :: vs, s =>
      let s' := applyVerdict s v
      match routeOf s' with
      | .fail => runAux vs s'
      | r => (s', some r)

/-- An execution trace of the workflow from the initial state. -/
def runTrace (vs : List Verdict) : RC × Option Route := runAux vs initRC

theorem schemaViolation_message_ne_PASS (m : String) :
    ("JSON Schema Validation FAILED: " ++ m) ≠ "PASS" := by
  intro h
  have hl := congrArg String.length h
  simp [String.length_append] at hl
  have h1 : ("JSON Schema Validation FAILED: ").length = 31 := rfl
  have h2 : ("PASS").length = 4 := rfl
  omega

theorem parseError_message_ne_PASS (m : String) :
    ("JSON Parse Error: " ++ m) ≠ "PASS" := by
  intro h
  have hl := congrArg String.length h
  simp [String.length_append] at hl
  have h1 : ("JSON Parse Error: ").length = 18 := rfl
  have h2 : ("PASS").length = 4 := rfl
  omega

theorem routeOf_applyVerdict_pass (s : RC) : routeOf (applyVerdict s .pass) = .pass := by
  simp [routeOf, applyVerdict, route_after_validation]

theorem routeOf_applyVerdict_fail (s : RC) (v : Verdict) (hv : v ≠ .pass) :
    routeOf (applyVerdict s v) =
      (if s.num_retries + 1 ≥ MAX_RETRIES then .retryLimitExceeded else .fail) := by
  cases v with
  | pass => exact absurd rfl hv
  | schemaViolation m =>
      simp [routeOf, applyVerdict, route_after_validation,
        schemaViolation_message_ne_PASS m]
  | parseError m =>
      simp [routeOf, applyVerdict, route_after_validation,
        parseError_message_ne_PASS m]

/-- Main loop invariant: starting below the bound, the final retry counter
never exceeds `MAX_RETRIES`, and reaching the retry-limit route pins it to
exactly `MAX_RETRIES`. -/
theorem runAux_invariant (vs : List Verdict) :
    ∀ s : RC, s.num_retries < MAX_RETRIES →
      (runAux vs s).1.num_retries ≤ MAX_RETRIES ∧
      ((runAux vs s).2 = some .retryLimitExceeded →
        (runAux vs s).1.num_retries = MAX_RETRIES) := by
  induction vs with
  | nil => intro s hs; exact ⟨Nat.le_of_lt hs, by simp [runAux]⟩
  | cons v vs ih =>
    intro s hs
    by_cases hv : v = Verdict.pass
    · subst hv
      have hr := routeOf_applyVerdict_pass s
      have hn : (applyVerdict s .pass).num_retries = s.num_retries := rfl
      simp only [runAux, hr]
      exact ⟨by simp [hn]; omega, by simp⟩
    · have hn : (applyVerdict s v).num_retries = s.num_retries + 1 := by
        cases v with
        | pass => exact absurd rfl hv
        | schemaViolation m => rfl
        | parseError m => rfl
      have hr := routeOf_applyVerdict_fail s v hv
      by_cases hlim : s.num_retries + 1 ≥ MAX_RETRIES
      · have : routeOf (applyVerdict s v) = .retryLimitExceeded := by
          rw [hr]; simp [hlim]
        simp only [runAux, this]
        constructor
        · simp [hn]; omega
        · intro _; simp [hn]; omega
      · have : routeOf (applyVerdict s v) = .fail := by
          rw [hr]; simp [hlim]
        simp only [runAux, this]
        exact ih (applyVerdict s v) (by omega)

/-- C1: across every execution trace (any verdict sequence), the retry
counter starts at 0, a `PASS` verdict leaves it unchanged, each non-`PASS`
verdict increments it by exactly one, it never exceeds `MAX_RETRIES`, and
it equals exactly `MAX_RETRIES` whenever the trace terminates on the
`Retry Limit Exceeded` route. -/
theorem retry_counter_invariant (vs : List Verdict) :
    initRC.num_retries = 0
    ∧ (∀ s : RC, (applyVerdict s .pass).num_retries = s.num_retries)
    ∧ (∀ (s : RC) (v : Verdict), v ≠ .pass →
        (applyVerdict s v).num_retries = s.num_retries + 1)
    ∧ (runTrace vs).1.num_retries ≤ MAX_RETRIES
    ∧ ((runTrace vs).2 = some .retryLimitExceeded →
        (runTrace vs).1.num_retries = MAX_RETRIES) := by
  have hinv := runAux_invariant vs initRC (by simp [initRC, MAX_RETRIES])
  refine ⟨rfl, fun s => rfl, ?_, hinv.1, hinv.2⟩
  intro s v hv
  cases v with
  | pass => exact absurd rfl hv
  | schemaViolation m => rfl
  | parseError m => rfl

/-- Witness for `retry_counter_invariant`: three consecutive parse
failures terminate with the retry counter exactly at the bound, and a
single failure increments the counter from 0 to 1. -/
theorem retry_counter_invariant_witness :
    (applyVerdict initRC (.parseError "x")).num_retries = initRC.num_retries + 1
    ∧ (runTrace [.parseError "a", .parseError "b", .parseError "c"]).1.num_retries
        = MAX_RETRIES :=
  ⟨(retry_counter_invariant []).2.2.1 initRC (.parseError "x") (by decide),
   (retry_counter_invariant [.parseError "a", .parseError "b", .parseError "c"]).2.2.2.2
     (by decide)⟩

/-- Modelled from the claim C2 wording: the transition table with the
guard `retry counter < MAX_RETRIES` evaluated on the pre-increment counter
value. -/
def claimedRoute (v : Verdict) (preRetries : Nat) : Route :=
  match v with
  | .pass => .pass
  | _ => if preRetries ≥ MAX_RETRIES then .retryLimitExceeded else .fail

/-- Counterexample to C2 as stated: after two failed attempts the counter
is 2; on the third failure the pre-increment guard of the claim
(2 < MAX_RETRIES) would route to `Correcting`, but the code increments
first and `route_after_validation` reads the post-increment value 3, so it
terminates on `Retry Limit Exceeded`. -/
theorem route_guard_counterexample :
    (runTrace [.parseError "x", .parseError "x"]).1.num_retries = 2
    ∧ claimedRoute (.parseError "x") 2 = .fail
    ∧ routeOf (applyVerdict (runTrace [.parseError "x", .parseError "x"]).1
        (.parseError "x")) = .retryLimitExceeded
    ∧ Route.fail ≠ Route.retryLimitExceeded := by
  refine ⟨by decide, by decide, ?_, by decide⟩
  decide

/-- C2 amended: the post-validation routing implements the transition
table with the guard evaluated on the post-increment counter: `PASS` routes
to aggregation with the counter unchanged; a non-`PASS` verdict increments
the counter by exactly 1 and then terminates as `Retry Limit Exceeded`
when the incremented counter reaches `MAX_RETRIES`, otherwise routes to
`Correcting`.  Hence `MAX_RETRIES` total failed validations (the initial
attempt plus `MAX_RETRIES - 1` corrections) already terminate the run. -/
theorem route_after_validation_table (s : RC) :
    (routeOf (applyVerdict s .pass) = .pass
      ∧ (applyVerdict s .pass).num_retries = s.num_retries)
    ∧ (∀ v : Verdict, v ≠ .pass →
        (applyVerdict s v).num_retries = s.num_retries + 1
        ∧ routeOf (applyVerdict s v) =
            (if s.num_retries + 1 ≥ MAX_RETRIES then .retryLimitExceeded else .fail)) := by
  refine ⟨⟨routeOf_applyVerdict_pass s, rfl⟩, ?_⟩
  intro v hv
  refine ⟨?_, routeOf_applyVerdict_fail s v hv⟩
  cases v with
  | pass => exact absurd rfl hv
  | schemaViolation m => rfl
  | parseError m => rfl

/-- Witness for `route_after_validation_table` at the initial state and a
concrete schema-violation verdict. -/
theorem route_after_validation_table_witness :
    (applyVerdict initRC (.schemaViolation "bad")).num_retries = 1
    ∧ routeOf (applyVerdict initRC (.schemaViolation "bad")) = .fail := by
  have h := (route_after_validation_table initRC).2 (.schemaViolation "bad") (by decide)
  exact ⟨h.1, by rw [h.2]; decide⟩

/-! ## Response sanitizer

Embedding of `_remove_markdown_code_blocks` (`utlis_2.py` lines 368-387)
over `List Char` (one entry per Python character).  `pyStrip` models
`str.strip()` on ASCII whitespace, `findNewlineIdx` models
`str.find("\n")`, `rfindFenceIdx` models `str.rfind("``` ... ")` returning
the greatest start index of a backtick triple. -/

def pySpace (c : Char) : Bool :=
  c == ' ' || c == '\t' || c == '\n' || c == '\r' || c == Char.ofNat 11 || c == Char.ofNat 12

def stripLeft (l : List Char) : List Char := l.dropWhile pySpace

def stripRight (l : List Char) : List Char := (l.reverse.dropWhile pySpace).reverse

/-- Python `str.strip()`: whitespace removed from both ends. -/
def pyStrip (l : List Char) : List Char := stripRight (stripLeft l)

def backtick : Char := Char.ofNat 96

def fenceChars : List Char := [backtick, backtick, backtick]

/-- Python `text.startswith("` ``` `")`. -/
def startsWithFence (l : List Char) : Bool := fenceChars.isPrefixOf l

/-- Python `text.find("\n")`: index of the first newline, if any. -/
def findNewlineIdx : List Char → Option Nat
  | [] => none
  | c :: cs => if c = '\n' then some 0 else (findNewlineIdx cs).map (· + 1)

/-- True when a backtick triple starts at index `i`. -/
def fenceAt (l : List Char) (i : Nat) : Bool := fenceChars.isPrefixOf (l.drop i)

/-- Python `text.rfind("` ``` `")`: greatest index at which a backtick
triple starts, if any. -/
def rfindFenceIdx (l : List Char) : Option Nat :=
  (List.range l.length).foldl (fun acc i => if fenceAt l i then some i else acc) none

/-- Embedding of `_remove_markdown_code_blocks` (`utlis_2.py` lines
368-387): strip, and when the stripped text starts with a backtick fence
and contains a newline, slice between the first newline and the last
backtick triple and strip the slice again. -/
def removeMarkdownCodeBlocks (x : List Char) : List Char :=
  let t := pyStrip x
  if startsWithFence t then
    match findNewlineIdx t, rfindFenceIdx t with
    | some fn, some lb => pyStrip ((t.take lb).drop (fn + 1))
    | _, _ => t
  else t

/-- Modelled from the claim C7 wording: return everything strictly between
the end of the opening fence line and the last backtick triple, with no
further trimming of the extracted middle. -/
def claimedSanitize (x : List Char) : List Char :=
  let t := pyStrip x
  if startsWithFence t then
    match findNewlineIdx t, rfindFenceIdx t with
    | some fn, some lb => (t.take lb).drop (fn + 1)
    | _, _ => t
  else t

theorem dropWhile_idem (p : Char → Bool) (l : List Char) :
    (l.dropWhile p).dropWhile p = l.dropWhile p := by
  induction l with
  | nil => rfl
  | cons c cs ih =>
      by_cases h : p c
      · simp [List.dropWhile, h, ih]
      · simp [List.dropWhile, h]

/-- Head of the list, if any, is not Python whitespace. -/
def goodHead : List Char → Prop
  | [] => True
  | c :: _ => pySpace c = false

theorem goodHead_dropWhile (l : List Char) : goodHead (l.dropWhile pySpace) := by
  induction l with
  | nil => trivial
  | cons c cs ih =>
      rw [List.dropWhile_cons]
      by_cases h : pySpace c = true
      · rw [if_pos h]; exact ih
      · rw [if_neg h]
        show pySpace c = false
        simpa using h

theorem stripLeft_of_goodHead (l : List Char) (h : goodHead l) : stripLeft l = l := by
  cases l with
  | nil => rfl
  | cons c cs =>
      have h' : pySpace c = false := h
      simp [stripLeft, List.dropWhile_cons, h']

theorem stripRight_preserves_goodHead (l : List Char) (h : goodHead l) :
    goodHead (stripRight l) := by
  have hsuf : l.reverse.dropWhile pySpace <:+ l.reverse := List.dropWhile_suffix _
  have hpre : stripRight l <+: l := by
    obtain ⟨t, ht⟩ := hsuf
    refine ⟨t.reverse, ?_⟩
    have hrev := congrArg List.reverse ht
    simpa [stripRight, List.reverse_append] using hrev
  obtain ⟨t, ht⟩ := hpre
  cases hsr : stripRight l with
  | nil => trivial
  | cons c cs =>
      rw [hsr] at ht
      cases l with
      | nil => simp at ht
      | cons c' cs' =>
          have : c = c' := by
            have := ht
            simp at this
            exact this.1
          subst this
          exact h

theorem stripRight_idem (l : List Char) : stripRight (stripRight l) = stripRight l := by
  simp [stripRight, List.reverse_reverse, dropWhile_idem]

theorem goodHead_pyStrip (l : List Char) : goodHead (pyStrip l) :=
  stripRight_preserves_goodHead _ (goodHead_dropWhile l)

theorem pyStrip_idem (l : List Char) : pyStrip (pyStrip l) = pyStrip l := by
  have h1 : stripLeft (pyStrip l) = pyStrip l :=
    stripLeft_of_goodHead _ (goodHead_pyStrip l)
  show stripRight (stripLeft (pyStrip l)) = pyStrip l
  rw [h1]
  show stripRight (stripRight (stripLeft l)) = pyStrip l
  rw [stripRight_idem]
  rfl

/-- The sanitizer output is always already stripped. -/
theorem removeMarkdown_stripped (x : List Char) :
    pyStrip (removeMarkdownCodeBlocks x) = removeMarkdownCodeBlocks x := by
  unfold removeMarkdownCodeBlocks
  by_cases h : startsWithFence (pyStrip x)
  · simp only [h, if_true]
    cases hf : findNewlineIdx (pyStrip x) with
    | none => simp [pyStrip_idem]
    | some fn =>
        cases hl : rfindFenceIdx (pyStrip x) with
        | none => simp [pyStrip_idem]
        | some lb => simp [pyStrip_idem]
  · simp [h, pyStrip_idem]

theorem findNewlineIdx_eq_some (l : List Char) (fn : Nat)
    (h1 : l[fn]? = some '\n') (h2 : ∀ j, j < fn → l[j]? ≠ some '\n') :
    findNewlineIdx l = some fn := by
  induction l generalizing fn with
  | nil => simp at h1
  | cons c cs ih =>
      cases fn with
      | zero =>
          simp at h1
          simp [findNewlineIdx, h1]
      | succ m =>
          have hc : c ≠ '\n' := by
            intro hEq
            exact h2 0 (Nat.succ_pos m) (by simp [hEq])
          have h1' : cs[m]? = some '\n' := by simpa using h1
          have h2' : ∀ j, j < m → cs[j]? ≠ some '\n' := by
            intro j hj
            have := h2 (j + 1) (by omega)
            simpa using this
          simp [findNewlineIdx, hc, ih m h1' h2']

theorem findNewlineIdx_eq_none (l : List Char)
    (h : ∀ j, j < l.length → l[j]? ≠ some '\n') :
    findNewlineIdx l = none := by
  induction l with
  | nil => rfl
  | cons c cs ih =>
      have hc : c ≠ '\n' := by
        intro hEq
        exact h 0 (by simp) (by simp [hEq])
      have h' : ∀ j, j < cs.length → cs[j]? ≠ some '\n' := by
        intro j hj
        have := h (j + 1) (by simp; omega)
        simpa using this
      simp [findNewlineIdx, hc, ih h']

theorem fenceAt_lt_length (l : List Char) (i : Nat) (h : fenceAt l i = true) :
    i < l.length := by
  unfold fenceAt at h
  have hpre : fenceChars <+: l.drop i := by
    exact List.isPrefixOf_iff_prefix.mp h
  have hlen := hpre.length_le
  simp [fenceChars, List.length_drop] at hlen
  omega

theorem rfindFenceIdx_foldl_eq (l : List Char) (lb : Nat)
    (hat : fenceAt l lb = true) :
    ∀ n, lb < n → (∀ j, j < n → lb < j → fenceAt l j = false) →
      (List.range n).foldl (fun acc i => if fenceAt l i then some i else acc) none
        = some lb := by
  intro n
  induction n with
  | zero => intro h; omega
  | succ m ih =>
      intro hlt hothers
      rw [List.range_succ, List.foldl_append]
      simp only [List.foldl_cons, List.foldl_nil]
      by_cases hm : lb = m
      · subst hm
        simp [hat]
      · have hlbm : lb < m := by omega
        have hm' : fenceAt l m = false := hothers m (by omega) hlbm
        rw [ih hlbm (fun j hj hlb => hothers j (by omega) hlb)]
        simp [hm']

theorem rfindFenceIdx_eq_some (l : List Char) (lb : Nat)
    (hat : fenceAt l lb = true)
    (hlast : ∀ j, j < l.length → lb < j → fenceAt l j = false) :
    rfindFenceIdx l = some lb := by
  have hlb := fenceAt_lt_length l lb hat
  exact rfindFenceIdx_foldl_eq l lb hat l.length hlb hlast

/-- Counterexample to C7 as stated: on the fenced input
`"` ``` `\n a \n` ``` `"` the code returns the extracted middle with its
surrounding whitespace stripped (`"a"`), not everything strictly between
the end of the opening fence line and the last backtick triple
(`" a \n"`). -/
theorem sanitize_strips_middle_counterexample :
    removeMarkdownCodeBlocks ("```\n a \n```".toList) = "a".toList
    ∧ claimedSanitize ("```\n a \n```".toList) = " a \n".toList
    ∧ ("a".toList : List Char) ≠ " a \n".toList := by
  refine ⟨by decide, by decide, by decide⟩

/-- C7 amended: on input whose trimmed form does not start with a backtick
fence, or starts with a fence but contains no newline, the trimmed text is
returned unchanged; when the trimmed text starts with a fence, `fn` is the
index of its first newline and `lb` is the greatest index at which a
backtick triple starts (which is the opening fence itself when no closing
fence follows), the result is the slice strictly between the end of the
opening fence line and that last triple, with surrounding whitespace
stripped from the slice. -/
theorem remove_markdown_code_blocks_spec (x : List Char) (fn lb : Nat) :
    (startsWithFence (pyStrip x) = false → removeMarkdownCodeBlocks x = pyStrip x)
    ∧ (startsWithFence (pyStrip x) = true →
        (∀ j, j < (pyStrip x).length → (pyStrip x)[j]? ≠ some '\n') →
        removeMarkdownCodeBlocks x = pyStrip x)
    ∧ (startsWithFence (pyStrip x) = true →
        (pyStrip x)[fn]? = some '\n' →
        (∀ j, j < fn → (pyStrip x)[j]? ≠ some '\n') →
        fenceAt (pyStrip x) lb = true →
        (∀ j, j < (pyStrip x).length → lb < j → fenceAt (pyStrip x) j = false) →
        removeMarkdownCodeBlocks x = pyStrip (((pyStrip x).take lb).drop (fn + 1))) := by
  refine ⟨?_, ?_, ?_⟩
  · intro h
    simp [removeMarkdownCodeBlocks, h]
  · intro h hno
    have hfind : findNewlineIdx (pyStrip x) = none := findNewlineIdx_eq_none _ hno
    simp [removeMarkdownCodeBlocks, h, hfind]
  · intro h h1 h2 hat hlast
    have hfind : findNewlineIdx (pyStrip x) = some fn := findNewlineIdx_eq_some _ fn h1 h2
    have hrf : rfindFenceIdx (pyStrip x) = some lb := rfindFenceIdx_eq_some _ lb hat hlast
    simp [removeMarkdownCodeBlocks, h, hfind, hrf]

/-- Witness for `remove_markdown_code_blocks_spec`: the unfenced branch on
a plain input, and the fenced branch on `"` ``` `json\nhi\n` ``` `"` with
first newline at 7 and last backtick triple at 11. -/
theorem remove_markdown_code_blocks_spec_witness :
    removeMarkdownCodeBlocks ("hello".toList) = pyStrip ("hello".toList)
    ∧ removeMarkdownCodeBlocks ("```json\nhi\n```".toList)
        = pyStrip (((pyStrip ("```json\nhi\n```".toList)).take 11).drop 8) :=
  ⟨(remove_markdown_code_blocks_spec ("hello".toList) 0 0).1 (by decide),
   (remove_markdown_code_blocks_spec ("```json\nhi\n```".toList) 7 11).2.2
     (by decide) (by decide) (by decide) (by decide) (by decide)⟩

/-- Counterexample to C8 as stated: the sanitizer is not idempotent.  On
the nested-fence input below the first pass returns a string that itself
starts with a fence, and the second pass strips again. -/
theorem sanitize_not_idempotent :
    removeMarkdownCodeBlocks ("```\n```\nhi\n```\n```".toList) = "```\nhi\n```".toList
    ∧ removeMarkdownCodeBlocks (removeMarkdownCodeBlocks ("```\n```\nhi\n```\n```".toList))
        = "hi".toList
    ∧ removeMarkdownCodeBlocks (removeMarkdownCodeBlocks ("```\n```\nhi\n```\n```".toList))
        ≠ removeMarkdownCodeBlocks ("```\n```\nhi\n```\n```".toList) := by
  refine ⟨by decide, by decide, by decide⟩

/-- C8 amended: the sanitizer is idempotent on every input whose sanitized
form does not itself start with a backtick fence (a second application then
returns its already-stripped input unchanged). -/
theorem sanitize_idempotent_unless_fenced (x : List Char)
    (h : startsWithFence (removeMarkdownCodeBlocks x) = false) :
    removeMarkdownCodeBlocks (removeMarkdownCodeBlocks x)
      = removeMarkdownCodeBlocks x := by
  have hstr := removeMarkdown_stripped x
  conv_lhs => rw [removeMarkdownCodeBlocks]
  rw [hstr, if_neg (by simp [h])]

/-- Witness for `sanitize_idempotent_unless_fenced` at a plain input. -/
theorem sanitize_idempotent_unless_fenced_witness :
    removeMarkdownCodeBlocks (removeMarkdownCodeBlocks ("hello".toList))
      = removeMarkdownCodeBlocks ("hello".toList) :=
  sanitize_idempotent_unless_fenced ("hello".toList) (by decide)

/-! ## Subset extraction

Embedding of `SIMULATION_KEYS_TO_EXTRACT` (`utlis_2.py` lines 37-46) and
`_extract_simulation_subset` (`utlis_2.py` lines 353-365). -/

/-- First binding of a key in a Python dict modelled as an association
list. -/
def lookupKey (kvs : List (String × Json)) (k : String) : Option Json :=
  match kvs with
  | [] => none
  | (k', v) :: rest => if k' = k then some v else lookupKey rest k

def SIMULATION_KEYS_TO_EXTRACT : List String :=
  ["lessonInformation",
   "assessmentCriterion",
   "selectedAssessmentCriterion",
   "simulationName",
   "simulationFlow",
   "workplaceScenario",
   "industryAlignedActivities",
   "selectedIndustryAlignedActivities"]

/-- Embedding of `_extract_simulation_subset`: `full_json.get("topicWizardData", {})`
followed by a dict comprehension keeping the keys in `keys_to_extract`.
`.get` on a non-dict and `.items()` on a non-dict value raise
`AttributeError`, modelled as `Except.error`. -/
def extract_simulation_subset (full_json : Json) (keys_to_extract : List String) :
    Except String (List (String × Json)) :=
  match full_json with
  | .obj kvs =>
      match lookupKey kvs "topicWizardData" with
      | none => .ok []
      | some (.obj inner) => .ok (inner.filter (fun kv => keys_to_extract.contains kv.1))
      | some _ => .error "AttributeError"
  | _ => .error "AttributeError"

/-- Counterexample to C10 as stated: extraction is not total on all
documents — when the `topicWizardData` member is present but is not a
dict, the comprehension iterates `.items()` of a non-dict and raises
`AttributeError`. -/
theorem extract_subset_counterexample :
    extract_simulation_subset (.obj [("topicWizardData", .str "x")])
        SIMULATION_KEYS_TO_EXTRACT
      = .error "AttributeError" := rfl

/-- C10 amended: on every document that is a dict whose `topicWizardData`
member, when present, is itself a dict, extraction returns without error
exactly the `SIMULATION_KEYS_TO_EXTRACT` entries present under
`topicWizardData`; an absent `topicWizardData` yields the empty dict, and
missing extraction keys are never rejected (any sub-dict, with any subset
of the keys, succeeds). -/
theorem extract_subset_spec (kvs inner : List (String × Json)) :
    (lookupKey kvs "topicWizardData" = some (.obj inner) →
      extract_simulation_subset (.obj kvs) SIMULATION_KEYS_TO_EXTRACT
        = .ok (inner.filter (fun kv => SIMULATION_KEYS_TO_EXTRACT.contains kv.1)))
    ∧ (lookupKey kvs "topicWizardData" = none →
      extract_simulation_subset (.obj kvs) SIMULATION_KEYS_TO_EXTRACT = .ok []) := by
  constructor
  · intro h
    simp [extract_simulation_subset, h]
  · intro h
    simp [extract_simulation_subset, h]

/-- Witness for `extract_subset_spec`: a document carrying one extraction
key, one locked key, and missing all other extraction keys is accepted and
filtered; a document without `topicWizardData` yields the empty dict. -/
theorem extract_subset_spec_witness :
    extract_simulation_subset
        (.obj [("topicWizardData",
                .obj [("simulationName", .str "s"), ("scenarioOptions", .arr [])])])
        SIMULATION_KEYS_TO_EXTRACT
      = .ok [("simulationName", .str "s")]
    ∧ extract_simulation_subset (.obj [("other", .null)]) SIMULATION_KEYS_TO_EXTRACT
      = .ok [] := by
  constructor
  · have h := (extract_subset_spec
      [("topicWizardData", .obj [("simulationName", .str "s"), ("scenarioOptions", .arr [])])]
      [("simulationName", .str "s"), ("scenarioOptions", .arr [])]).1 rfl
    rw [h]
    rfl
  · exact (extract_subset_spec [("other", .null)] []).2 rfl

/-! ## Schema inference and schema validation

`utlis_2.py` builds schemas with `genson.SchemaBuilder` (`add_object` then
`to_schema`, lines 149-151 and 312-314) and checks documents with
`jsonschema.validate` (lines 194 and 317).  Both are external libraries,
not code of this repository, so they are modelled from the specification
(sections 3 and 4.1: a schema records, per path, the permissible types and,
for dicts, the required keys inferred from the examples).

A schema node carries: one flag per scalar type seen (`null`, `boolean`,
`integer`, `string`), an array part (no array seen / only empty arrays
seen / an items node accumulating every element of every array seen), and
an object part (no dict seen / per-key property nodes plus the
intersection of the key sets of all dicts seen, which genson emits as
`required`).  `to_schema` linearizes such a node into the `type` list /
`anyOf` JSON schema that genson prints; validation is modelled directly on
nodes with the JSON-schema semantics of that output: a value passes a node
when its type was seen, array elements must pass the items node when one
exists, `required` keys must be present, and dict members must pass their
property node when one exists (extra members are unconstrained, since
genson never emits `additionalProperties`). -/

mutual
inductive Sch where
  | mk : Bool → Bool → Bool → Bool → ASch → OSch → Sch

inductive ASch where
  | noArr : ASch
  | arrAny : ASch
  | arrNode : Sch → ASch

inductive OSch where
  | noObj : OSch
  | objNode : List (String × Sch) → List String → OSch
end

/-- Modelled from the spec: a fresh `SchemaBuilder` node with no strategy
active. -/
def emptyNode : Sch := .mk false false false false .noArr .noObj

/-- First binding of a key among the property nodes. -/
def lookupProp (props : List (String × Sch)) (k : String) : Option Sch :=
  match props with
  | [] => none
  | (k', s) :: rest => if k' = k then some s else lookupProp rest k

/-- Replace the node bound to a key, first occurrence, keeping its
position. -/
def replaceProp : List (String × Sch) → String → Sch → List (String × Sch)
  | [], _, _ => []
  | (k', s') :: ps, k, s =>
      if k' = k then (k', s) :: ps else (k', s') :: replaceProp ps k s

mutual
/-- Modelled from the spec: `SchemaBuilder.add_object` — absorb one JSON
value into a schema node.  Scalars set their type flag; an array sends its
elements into the items node (empty arrays leave it absent); a dict sends
each member into the property node of its key and intersects `required`
with its key set. -/
def add_object : Sch → Json → Sch
  | .mk _ b i s a o, .null => .mk true b i s a o
  | .mk n _ i s a o, .bool _ => .mk n true i s a o
  | .mk n b _ s a o, .num _ => .mk n b true s a o
  | .mk n b i _ a o, .str _ => .mk n b i true a o
  | .mk n b i s a o, .arr xs =>
      .mk n b i s
        (match a, xs with
         | .noArr, [] => .arrAny
         | .arrAny, [] => .arrAny
         | .noArr, y :: ys => .arrNode (addList (add_object emptyNode y) ys)
         | .arrAny, y :: ys => .arrNode (addList (add_object emptyNode y) ys)
         | .arrNode inner, ys => .arrNode (addList inner ys)) o
  | .mk n b i s a o, .obj kvs =>
      .mk n b i s a
        (match o with
         | .noObj => .objNode (updProps [] kvs) (kvs.map (fun kv => kv.1))
         | .objNode props req =>
             .objNode (updProps props kvs)
               (req.filter (fun k => kvs.any (fun kv => kv.1 = k))))

/-- Absorb a list of values one by one into an items node. -/
def addList : Sch → List Json → Sch
  | s, [] => s
  | s, x :: xs => addList (add_object s x) xs

/-- Absorb dict members one by one into the property nodes, creating the
node of a new key at the end. -/
def updProps : List (String × Sch) → List (String × Json) → List (String × Sch)
  | props, [] => props
  | props, (k, v) :: rest =>
      updProps
        (match lookupProp props k with
         | some s => replaceProp props k (add_object s v)
         | none => props ++ [(k, add_object emptyNode v)]) rest
end

/-- One step of `updProps`: absorb one member value into the property
node of its key. -/
def updProp (props : List (String × Sch)) (k : String) (v : Json) :
    List (String × Sch) :=
  match lookupProp props k with
  | some s => replaceProp props k (add_object s v)
  | none => props ++ [(k, add_object emptyNode v)]

/-- The array part of `add_object` on an array argument. -/
def addArr : ASch → List Json → ASch
  | .noArr, [] => .arrAny
  | .arrAny, [] => .arrAny
  | .noArr, y :: ys => .arrNode (addList (add_object emptyNode y) ys)
  | .arrAny, y :: ys => .arrNode (addList (add_object emptyNode y) ys)
  | .arrNode inner, ys => .arrNode (addList inner ys)

/-- The object part of `add_object` on a dict argument. -/
def addObj : OSch → List (String × Json) → OSch
  | .noObj, kvs => .objNode (updProps [] kvs) (kvs.map (fun kv => kv.1))
  | .objNode props req, kvs =>
      .objNode (updProps props kvs) (req.filter (fun k => kvs.any (fun kv => kv.1 = k)))

theorem add_object_null (n b i s : Bool) (a : ASch) (o : OSch) :
    add_object (.mk n b i s a o) .null = .mk true b i s a o := rfl

theorem add_object_bool (n b i s : Bool) (a : ASch) (o : OSch) (x : Bool) :
    add_object (.mk n b i s a o) (.bool x) = .mk n true i s a o := rfl

theorem add_object_num (n b i s : Bool) (a : ASch) (o : OSch) (x : Int) :
    add_object (.mk n b i s a o) (.num x) = .mk n b true s a o := rfl

theorem add_object_str (n b i s : Bool) (a : ASch) (o : OSch) (x : String) :
    add_object (.mk n b i s a o) (.str x) = .mk n b i true a o := rfl

theorem add_object_arr (n b i s : Bool) (a : ASch) (o : OSch) (xs : List Json) :
    add_object (.mk n b i s a o) (.arr xs) = .mk n b i s (addArr a xs) o := by
  cases a <;> cases xs <;> rfl

theorem add_object_obj (n b i s : Bool) (a : ASch) (o : OSch) (kvs : List (String × Json)) :
    add_object (.mk n b i s a o) (.obj kvs) = .mk n b i s a (addObj o kvs) := by
  cases o <;> rfl

theorem addList_nil (s : Sch) : addList s [] = s := rfl

theorem addList_cons (s : Sch) (x : Json) (xs : List Json) :
    addList s (x :: xs) = addList (add_object s x) xs := rfl

theorem addArr_arrNode (inner : Sch) (ys : List Json) :
    addArr (.arrNode inner) ys = .arrNode (addList inner ys) := by
  cases ys <;> rfl

theorem addObj_noObj (kvs : List (String × Json)) :
    addObj .noObj kvs = .objNode (updProps [] kvs) (kvs.map (fun kv => kv.1)) := rfl

theorem addObj_objNode (props : List (String × Sch)) (req : List String)
    (kvs : List (String × Json)) :
    addObj (.objNode props req) kvs
      = .objNode (updProps props kvs)
          (req.filter (fun k => kvs.any (fun kv => kv.1 = k))) := rfl

theorem updProps_nil (props : List (String × Sch)) : updProps props [] = props := rfl

theorem updProps_cons (props : List (String × Sch)) (k : String) (v : Json)
    (rest : List (String × Json)) :
    updProps props ((k, v) :: rest) = updProps (updProp props k v) rest := rfl

mutual
/-- Modelled from the spec: `jsonschema.validate` against a
genson-produced schema succeeds (no `ValidationError`) exactly when this
returns `true`. -/
def jvalid : Json → Sch → Bool
  | .null, .mk n _ _ _ _ _ => n
  | .bool _, .mk _ b _ _ _ _ => b
  | .num _, .mk _ _ i _ _ _ => i
  | .str _, .mk _ _ _ s _ _ => s
  | .arr xs, .mk _ _ _ _ a _ =>
      match a with
      | .noArr => false
      | .arrAny => true
      | .arrNode inner => jvalidList xs inner
  | .obj kvs, .mk _ _ _ _ _ o =>
      match o with
      | .noObj => false
      | .objNode props req =>
          req.all (fun k => kvs.any (fun kv => kv.1 = k)) && jvalidKVs kvs props

def jvalidList : List Json → Sch → Bool
  | [], _ => true
  | x :: xs, s => jvalid x s && jvalidList xs s

def jvalidKVs : List (String × Json) → List (String × Sch) → Bool
  | [], _ => true
  | (k, v) :: rest, props =>
      (match lookupProp props k with
       | some s => jvalid v s
       | none => true) && jvalidKVs rest props
end

mutual
/-- Strengthening of `jvalid` used for the soundness induction: a value
`holds` in a node when it validates and, additionally, every part of the
value was actually absorbed into the node (array parts only hold in the
arrAny state when empty, dict members must have a property node). -/
def holds : Json → Sch → Bool
  | .null, .mk n _ _ _ _ _ => n
  | .bool _, .mk _ b _ _ _ _ => b
  | .num _, .mk _ _ i _ _ _ => i
  | .str _, .mk _ _ _ s _ _ => s
  | .arr xs, .mk _ _ _ _ a _ =>
      match a with
      | .noArr => false
      | .arrAny => xs.isEmpty
      | .arrNode inner => holdsList xs inner
  | .obj kvs, .mk _ _ _ _ _ o =>
      match o with
      | .noObj => false
      | .objNode props req =>
          req.all (fun k => kvs.any (fun kv => kv.1 = k)) && holdsKVs kvs props

def holdsList : List Json → Sch → Bool
  | [], _ => true
  | x :: xs, s => holds x s && holdsList xs s

def holdsKVs : List (String × Json) → List (String × Sch) → Bool
  | [], _ => true
  | (k, v) :: rest, props =>
      (match lookupProp props k with
       | some s => holds v s
       | none => false) && holdsKVs rest props
end

theorem holdsList_imp_jvalidList (ys : List Json) (s : Sch)
    (ih : ∀ y ∈ ys, holds y s = true → jvalid y s = true)
    (h : holdsList ys s = true) : jvalidList ys s = true := by
  induction ys with
  | nil => rfl
  | cons y ys ihy =>
      simp only [holdsList, Bool.and_eq_true] at h
      simp only [jvalidList, Bool.and_eq_true]
      exact ⟨ih y (List.mem_cons_self _ _) h.1,
             ihy (fun z hz => ih z (List.mem_cons_of_mem _ hz)) h.2⟩

theorem holdsKVs_imp_jvalidKVs (kvs : List (String × Json)) (props : List (String × Sch))
    (ih : ∀ p ∈ kvs, ∀ s, holds p.2 s = true → jvalid p.2 s = true)
    (h : holdsKVs kvs props = true) : jvalidKVs kvs props = true := by
  induction kvs with
  | nil => rfl
  | cons p rest ihr =>
      obtain ⟨k, v⟩ := p
      simp only [holdsKVs, Bool.and_eq_true] at h
      simp only [jvalidKVs, Bool.and_eq_true]
      refine ⟨?_, ihr (fun q hq => ih q (List.mem_cons_of_mem _ hq)) h.2⟩
      cases hl : lookupProp props k with
      | none => trivial
      | some s =>
          rw [hl] at h
          exact ih (k, v) (List.mem_cons_self _ _) s h.1

theorem holds_imp_jvalid : ∀ (d : Json) (s : Sch), holds d s = true → jvalid d s = true := by
  intro d
  induction d using Json.strongInd with
  | h d ih =>
    intro s h
    cases d with
    | null => cases s; simpa [holds, jvalid] using h
    | bool b => cases s; simpa [holds, jvalid] using h
    | num n => cases s; simpa [holds, jvalid] using h
    | str t => cases s; simpa [holds, jvalid] using h
    | arr xs =>
        obtain ⟨n, b, i, st, a, o⟩ := s
        cases a with
        | noArr => simp [holds] at h
        | arrAny => simp [jvalid]
        | arrNode inner =>
            simp only [holds] at h
            simp only [jvalid]
            exact holdsList_imp_jvalidList xs inner
              (fun y hy => ih y (Json.sizeOf_mem_arr hy) inner) h
    | obj kvs =>
        obtain ⟨n, b, i, st, a, o⟩ := s
        cases o with
        | noObj => simp [holds] at h
        | objNode props req =>
            simp only [holds, Bool.and_eq_true] at h
            simp only [jvalid, Bool.and_eq_true]
            refine ⟨h.1, holdsKVs_imp_jvalidKVs kvs props ?_ h.2⟩
            intro p hp s'
            obtain ⟨pk, pv⟩ := p
            exact ih pv (Json.sizeOf_mem_obj hp) s'

theorem lookupProp_append (props l2 : List (String × Sch)) (k : String) :
    lookupProp (props ++ l2) k
      = match lookupProp props k with
        | some v => some v
        | none => lookupProp l2 k := by
  induction props with
  | nil => simp [lookupProp]
  | cons p ps ih =>
      obtain ⟨k', s⟩ := p
      by_cases hk : k' = k
      · simp [lookupProp, hk]
      · simp [lookupProp, hk, ih]

theorem lookupProp_replaceProp_self (props : List (String × Sch)) (k : String) (s s₀ : Sch)
    (h : lookupProp props k = some s₀) :
    lookupProp (replaceProp props k s) k = some s := by
  induction props with
  | nil => simp [lookupProp] at h
  | cons p ps ih =>
      obtain ⟨k', s'⟩ := p
      by_cases hk : k' = k
      · simp [replaceProp, lookupProp, hk]
      · simp only [lookupProp, if_neg hk] at h
        simp [replaceProp, lookupProp, hk, ih h]

theorem lookupProp_replaceProp_other (props : List (String × Sch)) (kr k : String) (s : Sch)
    (h : kr ≠ k) : lookupProp (replaceProp props kr s) k = lookupProp props k := by
  induction props with
  | nil => rfl
  | cons p ps ih =>
      obtain ⟨k', s'⟩ := p
      by_cases hk : k' = kr
      · subst hk
        have hk2 : k' ≠ k := h
        simp [replaceProp, lookupProp, hk2]
      · by_cases hk2 : k' = k
        · subst hk2
          simp [replaceProp, lookupProp, hk]
        · simp [replaceProp, lookupProp, hk, hk2, ih]

theorem lookupProp_updProp_self (props : List (String × Sch)) (k : String) (w : Json) :
    lookupProp (updProp props k w) k
      = some (add_object ((lookupProp props k).getD emptyNode) w) := by
  unfold updProp
  cases hl : lookupProp props k with
  | none =>
      rw [lookupProp_append]
      rw [hl]
      simp [lookupProp]
  | some s₀ =>
      simp only [Option.getD_some]
      exact lookupProp_replaceProp_self props k _ s₀ hl

theorem lookupProp_updProp_other (props : List (String × Sch)) (k' k : String) (w : Json)
    (hk : k' ≠ k) : lookupProp (updProp props k' w) k = lookupProp props k := by
  unfold updProp
  cases hl : lookupProp props k' with
  | none =>
      rw [lookupProp_append]
      cases h2 : lookupProp props k with
      | none => simp [h2, lookupProp, hk]
      | some v => simp [h2]
  | some s₀ => exact lookupProp_replaceProp_other props k' k _ hk

theorem all_filter_of_all {α : Type} (l : List α) (p q : α → Bool) (h : l.all q = true) :
    (l.filter p).all q = true := by
  rw [List.all_eq_true] at h ⊢
  intro x hx
  exact h x (List.mem_of_mem_filter hx)

/-- Preservation: a value that holds in a node still holds after any
further value is absorbed into the node. -/
theorem holds_add_object_preserve :
    ∀ (w v : Json) (s : Sch), holds v s = true → holds v (add_object s w) = true := by
  intro w
  induction w using Json.strongInd with
  | h w ih =>
    have hAddList : ∀ (ys : List Json), (∀ y ∈ ys, sizeOf y < sizeOf w) →
        ∀ (v : Json) (s : Sch), holds v s = true → holds v (addList s ys) = true := by
      intro ys
      induction ys with
      | nil => intro _ v s h; simpa [addList_nil] using h
      | cons y ys ihy =>
          intro hsz v s h
          rw [addList_cons]
          exact ihy (fun z hz => hsz z (List.mem_cons_of_mem _ hz)) v _
            (ih y (hsz y (List.mem_cons_self _ _)) v s h)
    have hUpdPreserve : ∀ (lvs : List (String × Json)),
        (∀ p ∈ lvs, sizeOf p.2 < sizeOf w) →
        ∀ (props : List (String × Sch)) (k : String) (sk : Sch) (v : Json),
          lookupProp props k = some sk → holds v sk = true →
          ∃ sk', lookupProp (updProps props lvs) k = some sk' ∧ holds v sk' = true := by
      intro lvs
      induction lvs with
      | nil =>
          intro _ props k sk v hl hh
          exact ⟨sk, by simpa [updProps_nil] using hl, hh⟩
      | cons p lvs ihl =>
          obtain ⟨k₁, y⟩ := p
          intro hsz props k sk v hl hh
          rw [updProps_cons]
          by_cases hk : k₁ = k
          · subst hk
            have hsel := lookupProp_updProp_self props k₁ y
            rw [hl] at hsel
            simp only [Option.getD_some] at hsel
            exact ihl (fun q hq => hsz q (List.mem_cons_of_mem _ hq)) _ k₁ _ v hsel
              (ih y (hsz (k₁, y) (List.mem_cons_self _ _)) v sk hh)
          · have hoth := lookupProp_updProp_other props k₁ k y hk
            rw [hl] at hoth
            exact ihl (fun q hq => hsz q (List.mem_cons_of_mem _ hq)) _ k _ v hoth hh
    intro v s hv
    obtain ⟨n, b, i, st, a, o⟩ := s
    cases w with
    | null => rw [add_object_null]; cases v <;> simpa [holds] using hv
    | bool wb => rw [add_object_bool]; cases v <;> simpa [holds] using hv
    | num wn => rw [add_object_num]; cases v <;> simpa [holds] using hv
    | str ws => rw [add_object_str]; cases v <;> simpa [holds] using hv
    | arr ys =>
        have hys : ∀ y ∈ ys, sizeOf y < sizeOf (Json.arr ys) :=
          fun y hy => Json.sizeOf_mem_arr hy
        rw [add_object_arr]
        cases v with
        | null => simpa [holds] using hv
        | bool vb => simpa [holds] using hv
        | num vn => simpa [holds] using hv
        | str vs => simpa [holds] using hv
        | obj kvs => simpa [holds] using hv
        | arr xs =>
            simp only [holds] at hv ⊢
            cases a with
            | noArr => simp at hv
            | arrAny =>
                have hxs : xs = [] := by
                  cases xs with
                  | nil => rfl
                  | cons z zs => simp at hv
                subst hxs
                cases ys with
                | nil => simp [addArr]
                | cons y ys' =>
                    rw [show addArr ASch.arrAny (y :: ys')
                        = .arrNode (addList (add_object emptyNode y) ys') from rfl]
                    rfl
            | arrNode inner =>
                rw [addArr_arrNode]
                have hLmono : ∀ (zs : List Json), holdsList zs inner = true →
                    holdsList zs (addList inner ys) = true := by
                  intro zs
                  induction zs with
                  | nil => intro _; rfl
                  | cons z zs ihz =>
                      intro hz
                      simp only [holdsList, Bool.and_eq_true] at hz ⊢
                      exact ⟨hAddList ys hys z inner hz.1, ihz hz.2⟩
                exact hLmono xs hv
    | obj lvs =>
        have hlvs : ∀ p ∈ lvs, sizeOf p.2 < sizeOf (Json.obj lvs) := by
          intro p hp
          obtain ⟨pk, pv⟩ := p
          exact Json.sizeOf_mem_obj hp
        rw [add_object_obj]
        cases v with
        | null => simpa [holds] using hv
        | bool vb => simpa [holds] using hv
        | num vn => simpa [holds] using hv
        | str vs => simpa [holds] using hv
        | arr xs => simpa [holds] using hv
        | obj kvs =>
            simp only [holds] at hv ⊢
            cases o with
            | noObj => simp at hv
            | objNode props req =>
                simp only [Bool.and_eq_true] at hv
                rw [addObj_objNode]
                simp only [Bool.and_eq_true]
                refine ⟨all_filter_of_all req _ _ hv.1, ?_⟩
                have hKmono : ∀ (zs : List (String × Json)), holdsKVs zs props = true →
                    holdsKVs zs (updProps props lvs) = true := by
                  intro zs
                  induction zs with
                  | nil => intro _; rfl
                  | cons z zs ihz =>
                      obtain ⟨zk, zv⟩ := z
                      intro hz
                      simp only [holdsKVs, Bool.and_eq_true] at hz ⊢
                      refine ⟨?_, ihz hz.2⟩
                      cases hl : lookupProp props zk with
                      | none => rw [hl] at hz; simp at hz
                      | some sk =>
                          rw [hl] at hz
                          obtain ⟨sk', hsk', hh'⟩ :=
                            hUpdPreserve lvs hlvs props zk sk zv hl hz.1
                          rw [hsk']
                          exact hh'
                exact hKmono kvs hv.2

theorem holds_addList_preserve (ys : List Json) :
    ∀ (v : Json) (s : Sch), holds v s = true → holds v (addList s ys) = true := by
  induction ys with
  | nil => intro v s h; simpa [addList_nil] using h
  | cons y ys ihy =>
      intro v s h
      rw [addList_cons]
      exact ihy v _ (holds_add_object_preserve y v s h)

theorem holds_updProps_preserve (lvs : List (String × Json)) :
    ∀ (props : List (String × Sch)) (k : String) (sk : Sch) (v : Json),
      lookupProp props k = some sk → holds v sk = true →
      ∃ sk', lookupProp (updProps props lvs) k = some sk' ∧ holds v sk' = true := by
  induction lvs with
  | nil =>
      intro props k sk v hl hh
      exact ⟨sk, by simpa [updProps_nil] using hl, hh⟩
  | cons p lvs ihl =>
      obtain ⟨k₁, y⟩ := p
      intro props k sk v hl hh
      rw [updProps_cons]
      by_cases hk : k₁ = k
      · subst hk
        have hsel := lookupProp_updProp_self props k₁ y
        rw [hl] at hsel
        simp only [Option.getD_some] at hsel
        exact ihl _ k₁ _ v hsel (holds_add_object_preserve y v sk hh)
      · have hoth := lookupProp_updProp_other props k₁ k y hk
        rw [hl] at hoth
        exact ihl _ k _ v hoth hh

/-- Absorption: every value holds in any node into which it has been
absorbed. -/
theorem holds_add_object_self :
    ∀ (v : Json) (s : Sch), holds v (add_object s v) = true := by
  intro v
  induction v using Json.strongInd with
  | h v ih =>
    intro s
    obtain ⟨n, b, i, st, a, o⟩ := s
    cases v with
    | null => rw [add_object_null]; rfl
    | bool vb => rw [add_object_bool]; rfl
    | num vn => rw [add_object_num]; rfl
    | str vs => rw [add_object_str]; rfl
    | arr xs =>
        rw [add_object_arr]
        have hAL : ∀ (ys : List Json), (∀ y ∈ ys, sizeOf y < sizeOf (Json.arr xs)) →
            ∀ (s₀ : Sch), holdsList ys (addList s₀ ys) = true := by
          intro ys
          induction ys with
          | nil => intro _ s₀; rfl
          | cons y ys ihy =>
              intro hsz s₀
              rw [addList_cons]
              simp only [holdsList, Bool.and_eq_true]
              refine ⟨?_, ihy (fun z hz => hsz z (List.mem_cons_of_mem _ hz)) _⟩
              exact holds_addList_preserve ys y _
                (ih y (hsz y (List.mem_cons_self _ _)) s₀)
        have hxs : ∀ y ∈ xs, sizeOf y < sizeOf (Json.arr xs) :=
          fun y hy => Json.sizeOf_mem_arr hy
        cases a with
        | noArr =>
            cases xs with
            | nil => simp [addArr, holds]
            | cons x xs' =>
                rw [show addArr ASch.noArr (x :: xs')
                    = .arrNode (addList (add_object emptyNode x) xs') from rfl]
                simp only [holds]
                rw [← addList_cons]
                exact hAL (x :: xs') hxs emptyNode
        | arrAny =>
            cases xs with
            | nil => simp [addArr, holds]
            | cons x xs' =>
                rw [show addArr ASch.arrAny (x :: xs')
                    = .arrNode (addList (add_object emptyNode x) xs') from rfl]
                simp only [holds]
                rw [← addList_cons]
                exact hAL (x :: xs') hxs emptyNode
        | arrNode inner =>
            rw [addArr_arrNode]
            simp only [holds]
            exact hAL xs hxs inner
    | obj kvs =>
        rw [add_object_obj]
        have hkvs : ∀ p ∈ kvs, sizeOf p.2 < sizeOf (Json.obj kvs) := by
          intro p hp
          obtain ⟨pk, pv⟩ := p
          exact Json.sizeOf_mem_obj hp
        have hAO : ∀ (lvs : List (String × Json)),
            (∀ p ∈ lvs, sizeOf p.2 < sizeOf (Json.obj kvs)) →
            ∀ (props : List (String × Sch)), holdsKVs lvs (updProps props lvs) = true := by
          intro lvs
          induction lvs with
          | nil => intro _ props; rfl
          | cons p lvs ihl =>
              obtain ⟨k, x⟩ := p
              intro hsz props
              rw [updProps_cons]
              simp only [holdsKVs, Bool.and_eq_true]
              constructor
              · have hsel := lookupProp_updProp_self props k x
                have hhold : holds x (add_object ((lookupProp props k).getD emptyNode) x)
                    = true := ih x (hsz (k, x) (List.mem_cons_self _ _)) _
                obtain ⟨sk', hsk', hh'⟩ :=
                  holds_updProps_preserve lvs (updProp props k x) k _ x hsel hhold
                rw [hsk']
                exact hh'
              · exact ihl (fun q hq => hsz q (List.mem_cons_of_mem _ hq)) _
        cases o with
        | noObj =>
            rw [addObj_noObj]
            simp only [holds, Bool.and_eq_true]
            constructor
            · rw [List.all_eq_true]
              intro k hk
              rw [List.any_eq_true]
              rw [List.mem_map] at hk
              obtain ⟨kv, hkv, hkeq⟩ := hk
              exact ⟨kv, hkv, by simp [hkeq]⟩
            · exact hAO kvs hkvs []
        | objNode props req =>
            rw [addObj_objNode]
            simp only [holds, Bool.and_eq_true]
            constructor
            · rw [List.all_eq_true]
              intro k hk
              have := List.of_mem_filter hk
              simpa using this
            · exact hAO kvs hkvs props

/-- C3: schema inference is sound.  For every document, validating the
document against the schema genson infers from it (a fresh
`SchemaBuilder`, one `add_object`, then `to_schema`) raises no
`ValidationError` — this covers both uses in `utlis_2.py`: the extracted
subset schema of `recontextualize_agent` (lines 149-151) and the
full-document schema of `aggregator_node` (lines 312-314). -/
theorem schema_inference_sound (d : Json) :
    jvalid d (add_object emptyNode d) = true :=
  holds_imp_jvalid d _ (holds_add_object_self d emptyNode)

/-! ## Validator

Embedding of `validate_json` (`utlis_2.py` lines 175-216).  The generated
text is modelled as a character list, `json_repair.loads` as an explicit
parameter `parse` returning `Except` (its error carrying the
`json.JSONDecodeError` message), and the `jsonschema` check as the
modelled `jvalid`, with the text of the first violation supplied by a
parameter `vmsg` standing for `ValidationError.message`. -/

structure VOut where
  evaluator_message : String
  num_retries : Nat
  history_evaluator : List String
deriving DecidableEq

/-- Embedding of `validate_json`: clean the generated text, parse it,
check it against the schema, and return the partial state update of the
matching branch (lines 196-216). -/
def validate_json (parse : List Char → Except String Json) (vmsg : Json → Sch → String)
    (schema : Sch) (raw : List Char) (num_retries : Nat) (history_evaluator : List String) :
    VOut :=
  match parse (removeMarkdownCodeBlocks raw) with
  | .ok j =>
      if jvalid j schema then
        { evaluator_message := "PASS"
          num_retries := num_retries
          history_evaluator := history_evaluator ++ ["PASS"] }
      else
        { evaluator_message := "JSON Schema Validation FAILED: " ++ vmsg j schema
          num_retries := num_retries + 1
          history_evaluator := history_evaluator ++ [vmsg j schema] }
  | .error e =>
      { evaluator_message := "JSON Parse Error: " ++ e
        num_retries := num_retries + 1
        history_evaluator := history_evaluator ++ [e] }

/-- C6: the Validator classifies exactly as specified — a failed parse of
the sanitized text yields a parse-error verdict carrying the underlying
parser message (never a schema-violation verdict), a parsed value failing
the schema yields a schema-violation verdict carrying the violation
description, a parsed passing value yields `PASS` — and the Validator
never raises: it is total and every outcome is one of these three
messages. -/
theorem validator_classification (parse : List Char → Except String Json)
    (vmsg : Json → Sch → String) (schema : Sch) (raw : List Char)
    (n : Nat) (hist : List String) :
    (∀ e, parse (removeMarkdownCodeBlocks raw) = .error e →
      validate_json parse vmsg schema raw n hist
        = { evaluator_message := "JSON Parse Error: " ++ e
            num_retries := n + 1
            history_evaluator := hist ++ [e] })
    ∧ (∀ j, parse (removeMarkdownCodeBlocks raw) = .ok j → jvalid j schema = false →
      validate_json parse vmsg schema raw n hist
        = { evaluator_message := "JSON Schema Validation FAILED: " ++ vmsg j schema
            num_retries := n + 1
            history_evaluator := hist ++ [vmsg j schema] })
    ∧ (∀ j, parse (removeMarkdownCodeBlocks raw) = .ok j → jvalid j schema = true →
      validate_json parse vmsg schema raw n hist
        = { evaluator_message := "PASS"
            num_retries := n
            history_evaluator := hist ++ ["PASS"] })
    ∧ ((validate_json parse vmsg schema raw n hist).evaluator_message = "PASS"
        ∨ (∃ e, (validate_json parse vmsg schema raw n hist).evaluator_message
            = "JSON Parse Error: " ++ e)
        ∨ (∃ d, (validate_json parse vmsg schema raw n hist).evaluator_message
            = "JSON Schema Validation FAILED: " ++ d)) := by
  refine ⟨?_, ?_, ?_, ?_⟩
  · intro e he
    simp [validate_json, he]
  · intro j hj hs
    simp [validate_json, hj, hs]
  · intro j hj hs
    simp [validate_json, hj, hs]
  · unfold validate_json
    cases parse (removeMarkdownCodeBlocks raw) with
    | error e => right; left; exact ⟨e, rfl⟩
    | ok j =>
        by_cases hs : jvalid j schema
        · left; simp [hs]
        · right; right; exact ⟨vmsg j schema, by simp [hs]⟩

/-- Witness for `validator_classification`: a failing parser yields the
parse-error verdict, and a parser returning a value that satisfies the
schema yields the `PASS` verdict with the counter unchanged. -/
theorem validator_classification_witness :
    validate_json (fun _ => .error "boom") (fun _ _ => "v") emptyNode ("x".toList) 0 []
      = { evaluator_message := "JSON Parse Error: " ++ "boom"
          num_retries := 1
          history_evaluator := [] ++ ["boom"] }
    ∧ validate_json (fun _ => .ok .null) (fun _ _ => "v")
        (add_object emptyNode .null) ("null".toList) 0 []
      = { evaluator_message := "PASS"
          num_retries := 0
          history_evaluator := [] ++ ["PASS"] } :=
  ⟨(validator_classification (fun _ => .error "boom") (fun _ _ => "v") emptyNode
      ("x".toList) 0 []).1 "boom" rfl,
   (validator_classification (fun _ => .ok .null) (fun _ _ => "v")
      (add_object emptyNode .null) ("null".toList) 0 []).2.2.1 .null rfl rfl⟩

/-! ## Aggregator

Embedding of `aggregator_node` (`utlis_2.py` lines 277-345).  The node
re-loads the original document from a fixed file path (line 284); that
file is not part of the repository, so the parsed document is passed as
the parameter `data`.  `json_repair.loads` is the parameter `parse`,
`DeepDiff` is the parameter `diffFn` (its `Except.error` case standing for
a raised exception), and `time.time()` is the parameter `now`.  Python
exceptions raised by the node body are the `Except.error` results. -/

/-- The workflow `State` TypedDict (`utlis_2.py` lines 53-85).  The
`generated_schema` field holds the raw generated text, except that line
289 rebinds it in place to the parsed object, hence the sum type. -/
structure WState where
  current_scenario_option : String
  new_scenario_option : String
  current_scenario_example_json : Json
  validation_schema : Sch
  generated_schema : Sum String Json
  evaluator_message : String
  num_retries : Nat
  history_generator : List String
  history_evaluator : List String
  message_history : List (String × String)
  simulation_start_time : Int
  simulation_end_time : Int
  simulation_duration : Int
  schema_fidelity : String
  locked_field_equality : String
  changed_fields : Json
  output_json : Json

/-- Python dict assignment `d[k] = v`: replace the first binding in
place, or append a new one. -/
def setKey : List (String × Json) → String → Json → List (String × Json)
  | [], k, v => [(k, v)]
  | (k', v') :: rest, k, v =>
      if k' = k then (k', v) :: rest else (k', v') :: setKey rest k v

/-- Python `j["topicWizardData"][k] = v` on a (copy of a) document:
`KeyError` when `topicWizardData` is absent, `TypeError` when the
document or its `topicWizardData` member is not a dict; a missing inner
key `k` is created. -/
def setTopic (j : Json) (k : String) (v : Json) : Except String Json :=
  match j with
  | .obj kvs =>
      match lookupKey kvs "topicWizardData" with
      | some (.obj inner) =>
          .ok (.obj (setKey kvs "topicWizardData" (.obj (setKey inner k v))))
      | some _ => .error "TypeError"
      | none => .error "KeyError"
  | _ => .error "TypeError"

/-- Python `j["topicWizardData"][k]` read access. -/
def getTopic (j : Json) (k : String) : Except String Json :=
  match j with
  | .obj kvs =>
      match lookupKey kvs "topicWizardData" with
      | some (.obj inner) =>
          match lookupKey inner k with
          | some v => .ok v
          | none => .error "KeyError"
      | some _ => .error "TypeError"
      | none => .error "KeyError"
  | _ => .error "TypeError"

/-- The merge loop of `aggregator_node` (lines 291-292): write every
fragment key, in order, into `topicWizardData` of the copy. -/
def mergeFragment (j : Json) (frag : List (String × Json)) : Except String Json :=
  match frag with
  | [] => .ok j
  | (k, v) :: rest =>
      match setTopic j k v with
      | .ok j' => mergeFragment j' rest
      | .error e => .error e

/-- The partial state update returned by `aggregator_node`
(lines 338-345). -/
structure AggUpdate where
  schema_fidelity : String
  locked_field_equality : String
  output_json : Json
  simulation_end_time : Int
  simulation_duration : Int
  changed_fields : Json

/-- Embedding of `aggregator_node` (`utlis_2.py` lines 277-345).  In
order: parse `generated_schema` and rebind it in place into the incoming
state (line 289); deep-copy the document and overwrite every top-level
fragment key under `topicWizardData` (lines 287-292, the copy modelled by
value semantics); overwrite `selectedScenarioOption` (line 294); run
`DeepDiff` in a `try` whose `except` arm sets the diff to `{}` but leaves
`simulation_end_time` and `simulation_duration` unassigned (lines
297-310); compute schema fidelity against a schema built from the
original document (lines 312-323); compare the locked `scenarioOptions`
field (lines 325-328); finally print the duration and return (lines
330-345), which raises `NameError`/`UnboundLocalError` when the except
arm ran.  The returned pair is (state after the in-place write, partial
update). -/
def aggregator_node (parse : String → Json) (diffFn : Json → Json → Except String Json)
    (now : Int) (data : Json) (st : WState) : Except String (WState × AggUpdate) :=
  match st.generated_schema with
  | .inr _ => .error "TypeError"
  | .inl raw =>
      let frag := parse raw
      let st' := { st with generated_schema := .inr frag }
      match frag with
      | .obj kvs =>
          match mergeFragment data kvs with
          | .error e => .error e
          | .ok merged0 =>
              match setTopic merged0 "selectedScenarioOption" (.str st.new_scenario_option) with
              | .error e => .error e
              | .ok merged =>
                  let tryResult : Option (Json × Int × Int) :=
                    match diffFn data merged with
                    | .ok d => some (d, now, now - st.simulation_start_time)
                    | .error _ => none
                  let fidelity :=
                    if jvalid merged (add_object emptyNode data) then "PASS" else "FAIL"
                  match getTopic data "scenarioOptions", getTopic merged "scenarioOptions" with
                  | .ok lockedOrig, .ok lockedNew =>
                      let lfe := if lockedNew = lockedOrig then "PASS" else "FAIL"
                      match tryResult with
                      | some (d, se, sd) =>
                          .ok (st',
                            { schema_fidelity := fidelity
                              locked_field_equality := lfe
                              output_json := merged
                              simulation_end_time := se
                              simulation_duration := sd
                              changed_fields := d })
                      | none => .error "NameError"
                  | _, _ => .error "KeyError"
      | _ => .error "AttributeError"

theorem lookupKey_setKey_self (kvs : List (String × Json)) (k : String) (v : Json) :
    lookupKey (setKey kvs k v) k = some v := by
  induction kvs with
  | nil => simp [setKey, lookupKey]
  | cons p rest ih =>
      obtain ⟨k', v'⟩ := p
      by_cases hk : k' = k
      · simp [setKey, lookupKey, hk]
      · simp [setKey, lookupKey, hk, ih]

theorem lookupKey_setKey_other (kvs : List (String × Json)) (k₁ k : String) (v : Json)
    (hk : k₁ ≠ k) : lookupKey (setKey kvs k₁ v) k = lookupKey kvs k := by
  induction kvs with
  | nil => simp [setKey, lookupKey, hk]
  | cons p rest ih =>
      obtain ⟨k', v'⟩ := p
      by_cases h1 : k' = k₁
      · subst h1
        have h2 : k' ≠ k := hk
        simp [setKey, lookupKey, h2]
      · by_cases h2 : k' = k
        · subst h2
          simp [setKey, lookupKey, h1]
        · simp [setKey, lookupKey, h1, h2, ih]

/-- A successful topic write at one key leaves reads at any other key
unchanged. -/
theorem getTopic_setTopic_other (j j' : Json) (k₁ k : String) (v : Json)
    (hk : k₁ ≠ k) (h : setTopic j k₁ v = .ok j') :
    getTopic j' k = getTopic j k := by
  unfold setTopic at h
  cases j with
  | null => simp at h
  | bool b => simp at h
  | num n => simp at h
  | str s => simp at h
  | arr xs => simp at h
  | obj kvs =>
      dsimp only at h
      cases ht : lookupKey kvs "topicWizardData" with
      | none => rw [ht] at h; simp at h
      | some tv =>
          cases tv with
          | obj inner =>
              rw [ht] at h
              simp only [Except.ok.injEq] at h
              subst h
              simp [getTopic, lookupKey_setKey_self, ht,
                lookupKey_setKey_other inner k₁ k v hk]
          | null => rw [ht] at h; simp at h
          | bool b => rw [ht] at h; simp at h
          | num n => rw [ht] at h; simp at h
          | str s => rw [ht] at h; simp at h
          | arr xs => rw [ht] at h; simp at h

/-- Merging a fragment that avoids a key leaves reads at that key
unchanged. -/
theorem getTopic_mergeFragment_other (frag : List (String × Json)) :
    ∀ (j j' : Json) (k : String), mergeFragment j frag = .ok j' →
      (∀ kv ∈ frag, kv.1 ≠ k) → getTopic j' k = getTopic j k := by
  induction frag with
  | nil =>
      intro j j' k h _
      simp only [mergeFragment, Except.ok.injEq] at h
      subst h
      rfl
  | cons p rest ih =>
      obtain ⟨k₁, v⟩ := p
      intro j j' k h hno
      simp only [mergeFragment] at h
      cases hs : setTopic j k₁ v with
      | error e => rw [hs] at h; simp at h
      | ok jmid =>
          rw [hs] at h
          have h1 := getTopic_setTopic_other j jmid k₁ k v
            (hno (k₁, v) (List.mem_cons_self _ _)) hs
          have h2 := ih jmid j' k h (fun kv hkv => hno kv (List.mem_cons_of_mem _ hkv))
          rw [h2, h1]

/-- Shape of a successful `aggregator_node` run: every intermediate step
succeeded, the returned state is the incoming state with only
`generated_schema` rebound to the parsed fragment, and the update record
carries the two verdicts, the merged document, the diff, and the
duration. -/
theorem aggregator_node_ok_shape (parse : String → Json)
    (diffFn : Json → Json → Except String Json) (now : Int) (data : Json)
    (st st' : WState) (upd : AggUpdate) (kvs : List (String × Json)) (raw : String)
    (hraw : st.generated_schema = .inl raw)
    (hparse : parse raw = .obj kvs)
    (hok : aggregator_node parse diffFn now data st = .ok (st', upd)) :
    ∃ merged0 merged lockedOrig lockedNew d,
      mergeFragment data kvs = .ok merged0
      ∧ setTopic merged0 "selectedScenarioOption" (.str st.new_scenario_option) = .ok merged
      ∧ getTopic data "scenarioOptions" = .ok lockedOrig
      ∧ getTopic merged "scenarioOptions" = .ok lockedNew
      ∧ diffFn data merged = .ok d
      ∧ st' = { st with generated_schema := .inr (.obj kvs) }
      ∧ upd = { schema_fidelity :=
                  if jvalid merged (add_object emptyNode data) then "PASS" else "FAIL"
                locked_field_equality := if lockedNew = lockedOrig then "PASS" else "FAIL"
                output_json := merged
                simulation_end_time := now
                simulation_duration := now - st.simulation_start_time
                changed_fields := d } := by
  unfold aggregator_node at hok
  rw [hraw] at hok
  simp only [hparse] at hok
  cases hm : mergeFragment data kvs with
  | error e => simp only [hm] at hok; simp at hok
  | ok merged0 =>
      simp only [hm] at hok
      cases hsel : setTopic merged0 "selectedScenarioOption" (.str st.new_scenario_option) with
      | error e => simp only [hsel] at hok; simp at hok
      | ok merged =>
          simp only [hsel] at hok
          cases hlo : getTopic data "scenarioOptions" with
          | error e => simp only [hlo] at hok; simp at hok
          | ok lockedOrig =>
              simp only [hlo] at hok
              cases hln : getTopic merged "scenarioOptions" with
              | error e => simp only [hln] at hok; simp at hok
              | ok lockedNew =>
                  simp only [hln] at hok
                  cases hd : diffFn data merged with
                  | error e => simp only [hd] at hok; simp at hok
                  | ok d =>
                      simp only [hd] at hok
                      simp only [Except.ok.injEq, Prod.mk.injEq] at hok
                      exact ⟨merged0, merged, lockedOrig, lockedNew, d,
                        rfl, hsel, rfl, hln, hd, hok.1.symm, hok.2.symm⟩

/-- Example original document: a locked `scenarioOptions` list, the
`selectedScenarioOption`, and one extraction key under
`topicWizardData`. -/
def egData : Json :=
  .obj [("topicWizardData", .obj
    [("scenarioOptions", .arr [.str "o1", .str "o2"]),
     ("selectedScenarioOption", .str "o1"),
     ("simulationName", .str "sim")])]

/-- Example workflow state entering the aggregator. -/
def egState : WState :=
  { current_scenario_option := "old"
    new_scenario_option := "new"
    current_scenario_example_json := egData
    validation_schema := emptyNode
    generated_schema := .inl "{}"
    evaluator_message := "PASS"
    num_retries := 0
    history_generator := []
    history_evaluator := []
    message_history := []
    simulation_start_time := 2
    simulation_end_time := 0
    simulation_duration := 0
    schema_fidelity := ""
    locked_field_equality := ""
    changed_fields := .obj []
    output_json := .null }

/-- A benign parse result: the fragment rewrites only the extraction key
`simulationName`. -/
def egParse : String → Json := fun _ => .obj [("simulationName", .str "n2")]

/-- A parse result whose fragment accidentally contains the locked key
`scenarioOptions`. -/
def egParseEvil : String → Json := fun _ => .obj [("scenarioOptions", .str "evil")]

/-- A diff computation that succeeds with an empty diff. -/
def egDiffOk : Json → Json → Except String Json := fun _ _ => .ok (.obj [])

/-- Counterexample to C4 as stated: `scenarioOptions` is not an
extraction key, yet a fragment containing it does overwrite the locked
field — the merge loop writes every fragment key unfiltered, and the
verdict then reports FAIL. -/
theorem aggregator_locked_overwrite_counterexample :
    SIMULATION_KEYS_TO_EXTRACT.contains "scenarioOptions" = false
    ∧ (∃ st' upd, aggregator_node egParseEvil egDiffOk 5 egData egState = .ok (st', upd)
        ∧ getTopic upd.output_json "scenarioOptions" = .ok (.str "evil")
        ∧ getTopic egData "scenarioOptions" = .ok (.arr [.str "o1", .str "o2"])
        ∧ upd.locked_field_equality = "FAIL") := by
  exact ⟨by decide, ⟨_, _, rfl, rfl, rfl, rfl⟩⟩

/-- C4 amended: on every successful aggregation, the locked-field-equality
verdict is PASS exactly when the `scenarioOptions` field under
`topicWizardData` is structurally equal between the original and the
merged document; and whenever the fragment does not contain the
`scenarioOptions` key the merge leaves the locked field unchanged.  The
merge is not filtered by `SIMULATION_KEYS_TO_EXTRACT`, so a fragment that
does contain `scenarioOptions` overwrites the locked field (see the
counterexample) and the verdict then reports the change as FAIL. -/
theorem aggregator_locked_field_spec (parse : String → Json)
    (diffFn : Json → Json → Except String Json) (now : Int) (data : Json)
    (st st' : WState) (upd : AggUpdate) (kvs : List (String × Json)) (raw : String)
    (hraw : st.generated_schema = .inl raw)
    (hparse : parse raw = .obj kvs)
    (hok : aggregator_node parse diffFn now data st = .ok (st', upd)) :
    (∃ lockedOrig lockedNew,
        getTopic data "scenarioOptions" = .ok lockedOrig
        ∧ getTopic upd.output_json "scenarioOptions" = .ok lockedNew
        ∧ (upd.locked_field_equality = "PASS" ↔ lockedNew = lockedOrig))
    ∧ ((∀ kv ∈ kvs, kv.1 ≠ "scenarioOptions") →
        getTopic upd.output_json "scenarioOptions" = getTopic data "scenarioOptions") := by
  obtain ⟨merged0, merged, lockedOrig, lockedNew, d, hm, hsel, hlo, hln, hd, hst, hupd⟩ :=
    aggregator_node_ok_shape parse diffFn now data st st' upd kvs raw hraw hparse hok
  subst hupd
  constructor
  · refine ⟨lockedOrig, lockedNew, hlo, hln, ?_⟩
    by_cases he : lockedNew = lockedOrig
    · simp [he]
    · simp [he]
  · intro hno
    have h1 : getTopic merged "scenarioOptions" = getTopic merged0 "scenarioOptions" :=
      getTopic_setTopic_other merged0 merged "selectedScenarioOption" "scenarioOptions"
        (.str st.new_scenario_option) (by decide) hsel
    have h2 : getTopic merged0 "scenarioOptions" = getTopic data "scenarioOptions" :=
      getTopic_mergeFragment_other kvs data merged0 "scenarioOptions" hm hno
    show getTopic merged "scenarioOptions" = getTopic data "scenarioOptions"
    rw [h1, h2]

/-- Witness for `aggregator_locked_field_spec`: with the benign fragment
the locked field is untouched and the verdict is PASS. -/
theorem aggregator_locked_field_spec_witness :
    getTopic ((Json.obj [("topicWizardData", .obj
        [("scenarioOptions", .arr [.str "o1", .str "o2"]),
         ("selectedScenarioOption", .str "new"),
         ("simulationName", .str "n2")])])) "scenarioOptions"
      = getTopic egData "scenarioOptions" :=
  (aggregator_locked_field_spec egParse egDiffOk 5 egData egState _ _
    [("simulationName", .str "n2")] "{}" rfl rfl rfl).2 (by decide)

/-- C5: the claim is right and the code is wrong.  When `DeepDiff` raises,
the `except` arm of `aggregator_node` sets the diff to `{}` and continues,
but `simulation_end_time` and `simulation_duration` were only assigned
inside the `try`; the duration print and the return statement then raise
`UnboundLocalError`, so a diff failure is fatal to the run instead of
degrading to an empty diff. -/
theorem aggregator_diff_failure_fatal :
    aggregator_node egParse (fun _ _ => .error "deepdiff exception") 5 egData egState
      = .error "NameError" := rfl

/-- Counterexample to C9 as stated: `aggregator_node` does write into the
incoming workflow state outside its returned partial update — line 289
rebinds `generated_schema` in place to the parsed fragment, so the state
after the call differs from the state before it. -/
theorem aggregator_state_mutation_counterexample :
    ∃ st' upd, aggregator_node egParse egDiffOk 5 egData egState = .ok (st', upd)
      ∧ st'.generated_schema ≠ egState.generated_schema := by
  exact ⟨_, _, rfl, by decide⟩

/-- C9 amended: the Aggregator never mutates the original document (all
document writes go to a value copy, so the `data` argument is returned
unchanged by value semantics), and the only in-place write into the
incoming workflow state is the rebinding of `generated_schema` to its
parsed value: the post-call state equals the pre-call state with exactly
that one field changed. -/
theorem aggregator_state_write_only_parse (parse : String → Json)
    (diffFn : Json → Json → Except String Json) (now : Int) (data : Json)
    (st st' : WState) (upd : AggUpdate) (kvs : List (String × Json)) (raw : String)
    (hraw : st.generated_schema = .inl raw)
    (hparse : parse raw = .obj kvs)
    (hok : aggregator_node parse diffFn now data st = .ok (st', upd)) :
    st' = { st with generated_schema := .inr (.obj kvs) } := by
  obtain ⟨merged0, merged, lockedOrig, lockedNew, d, hm, hsel, hlo, hln, hd, hst, hupd⟩ :=
    aggregator_node_ok_shape parse diffFn now data st st' upd kvs raw hraw hparse hok
  exact hst

/-- Witness for `aggregator_state_write_only_parse` at the example run:
the post-call state is the pre-call state with only `generated_schema`
rebound. -/
theorem aggregator_state_write_only_parse_witness :
    ∃ st' upd, aggregator_node egParse egDiffOk 5 egData egState = .ok (st', upd)
      ∧ st' = { egState with generated_schema := .inr (.obj [("simulationName", .str "n2")]) } :=
  ⟨_, _, rfl, aggregator_state_write_only_parse egParse egDiffOk 5 egData egState _ _
    [("simulationName", .str "n2")] "{}" rfl rfl rfl⟩
